import Mathlib

/-!
Verification development for the investor-discovery MVP
(`src/investor_match_mvp.py`).

The Python source is shallowly embedded below:

* Module 2 (`extract_data_from_text`): the three regular expressions
  (`fund_pattern`, `ticket_keywords`, `fund_size_pattern`) are embedded as
  executable matchers over `List Char`, reproducing Python `re` semantics
  (leftmost non-overlapping `findall` scan, greedy/lazy quantifiers,
  alternation order, capture groups, `.` not matching newline, the
  `(?i)` flag where present) for the concrete patterns in the source.
* Module 3 (`init_db` / `insert_data_to_db`): the sqlite table is embedded
  as a list of rows with an auto-increment counter.
* Module 1 (`fetch_articles_from_user_input`): the network/HTML library
  calls are abstracted as an oracle `String → Except String String`
  (URL ↦ extracted page text or exception message); the per-URL loop and
  its try/except are embedded directly.
* Module 4 (`streamlit_ui`, read/filter part): the pandas filtering of the
  full-table read is embedded as list filtering; the selected filter
  values in the source are vocabulary joins with no regex metacharacters,
  so `Series.str.contains` applied to the alternation join of the
  selected values is substring matching OR-combined across values.

Strings are processed as `List Char`; Python `str.lower` is modelled by
`Char.toLower` (all pattern constants in the source are ASCII).
-/

/-- ASCII upper-case letter, the `[A-Z]` class. -/
def isUpperAZ (c : Char) : Bool := 'A' ≤ c && c ≤ 'Z'

/-- ASCII letter, the `[a-zA-Z]` class. -/
def isAlphaChar (c : Char) : Bool := ('a' ≤ c && c ≤ 'z') || ('A' ≤ c && c ≤ 'Z')

/-- The `[\d,.]` class used for dollar amounts. -/
def isAmtChar (c : Char) : Bool := c.isDigit || c == ',' || c == '.'

/-- The `\s` class (Python whitespace, ASCII part). -/
def isPySpace (c : Char) : Bool :=
  c == ' ' || c == '\t' || c == '\n' || c == '\r' || c == '\x0b' || c == '\x0c'

/-- Does the first list occur at the head of the second (case-sensitive)? -/
def strStarts : List Char → List Char → Bool
  | [], _ => true
  | _ :: _, [] => false
  | a :: xs, b :: ys => a == b && strStarts xs ys

/-- Python's `needle in hay` substring test on character lists. -/
def strContains : List Char → List Char → Bool
  | [], needle => strStarts needle []
  | c :: t, needle => strStarts needle (c :: t) || strContains t needle

/-- Case-insensitive version of `strStarts` (the `(?i)` flag). -/
def ciStarts : List Char → List Char → Bool
  | [], _ => true
  | _ :: _, [] => false
  | a :: xs, b :: ys => a.toLower == b.toLower && ciStarts xs ys

/-- Python `str.lower` (ASCII). -/
def lowerChars (l : List Char) : List Char := l.map Char.toLower

/-- Python `", ".join`. -/
def joinComma (l : List String) : String := String.intercalate ", " l

/-- First literal of the list matching at the head of `l` (case-sensitive
alternation, tried in order as in `re`). -/
def firstLit : List String → List Char → Option (List Char)
  | [], _ => none
  | s :: ss, l => if strStarts s.data l then some s.data else firstLit ss l

/-- First literal of the list matching case-insensitively at the head of `l`. -/
def firstLitCI : List String → List Char → Option (List Char)
  | [], _ => none
  | s :: ss, l => if ciStarts s.data l then some s.data else firstLitCI ss l

/-- The suffix vocabulary of `fund_pattern`
(`Capital|Ventures|Partners|Group|Investments|Fund|Advisors`). -/
def fundSuffixLits : List String :=
  ["Capital", "Ventures", "Partners", "Group", "Investments", "Fund", "Advisors"]

/-- One attempted match of
`([A-Z][a-zA-Z]+\s(?:Capital|Ventures|Partners|Group|Investments|Fund|Advisors))`
at the head of `l`; returns the length of the match.  The `[a-zA-Z]+` run is
maximal: shrinking it cannot help since `\s` rejects letters, so the regex
engine's backtracking never changes the outcome. -/
def matchFund (l : List Char) : Option Nat :=
  match l with
  | [] => none
  | c :: cs =>
    if isUpperAZ c then
      let w := cs.takeWhile isAlphaChar
      if w.isEmpty then none
      else
        match cs.drop w.length with
        | [] => none
        | d :: rest =>
          if isPySpace d then
            match firstLit fundSuffixLits rest with
            | some suf => some (1 + w.length + 1 + suf.length)
            | none => none
          else none
    else none

/-- Scan `re.findall(fund_pattern, ·)`: leftmost non-overlapping scan.  The fuel
argument bounds the recursion; every successful match consumes at least one
character, so fuel equal to the list length is never exhausted early. -/
def scanFundAux : Nat → List Char → List String
  | 0, _ => []
  | _ + 1, [] => []
  | fuel + 1, c :: cs =>
    match matchFund (c :: cs) with
    | some n => String.mk ((c :: cs).take n) :: scanFundAux fuel ((c :: cs).drop n)
    | none => scanFundAux fuel cs

/-- All matches of `fund_pattern` in the text (the whole pattern is one
capture group, so `findall` returns the matches themselves). -/
def scanFund (l : List Char) : List String := scanFundAux l.length l

/-- The suffix alternation of `fund_size_pattern`
(`million|billion|M|B`, case-sensitive, tried in order). -/
def sizeSuffixLits : List String := ["million", "billion", "M", "B"]

/-- The lookahead `(?=.*?fund)` of `fund_size_pattern`: the literal `fund`
occurs in the rest of the text with no newline before it (`.` does not
match a newline). -/
def lookAheadFund : List Char → Bool
  | [] => false
  | c :: cs =>
    if strStarts "fund".data (c :: cs) then true
    else if c == '\n' then false
    else lookAheadFund cs

/-- The mandatory group `(?:\s?(million|billion|M|B))` of
`fund_size_pattern` at the head of `r`: length consumed and the captured
suffix word.  If the optional `\s` was taken and the alternation then
fails, the regex engine retries without the `\s`; that retry is attempted
here too (it necessarily fails, as no alternative starts with a
whitespace character). -/
def sizeSuffixAt (r : List Char) : Option (Nat × String) :=
  match r with
  | c :: cs =>
    if isPySpace c then
      match firstLit sizeSuffixLits cs with
      | some lit => some (1 + lit.length, String.mk lit)
      | none =>
        match firstLit sizeSuffixLits (c :: cs) with
        | some lit => some (lit.length, String.mk lit)
        | none => none
    else
      match firstLit sizeSuffixLits (c :: cs) with
      | some lit => some (lit.length, String.mk lit)
      | none => none
  | [] => none

/-- One attempted match of
`\$[\d,.]+(?:\s?(million|billion|M|B))(?=.*?fund)` at the head of `l`:
length consumed and the captured group (the suffix word — the single
capture group of this pattern, hence what `re.findall` returns).  The
`[\d,.]+` run is maximal: shrinking it leaves a `[\d,.]` character in
front, which can satisfy neither `\s` nor the alternation, so
backtracking it never changes the outcome; likewise, at most one
alternative of the case-sensitive suffix alternation can match at a given
position, so a failing lookahead fails the whole attempt. -/
def matchFundSize (l : List Char) : Option (Nat × String) :=
  match l with
  | c :: cs =>
    if c == '$' then
      let digits := cs.takeWhile isAmtChar
      if digits.isEmpty then none
      else
        match sizeSuffixAt (cs.drop digits.length) with
        | some (slen, g) =>
          let total := 1 + digits.length + slen
          if lookAheadFund (l.drop total) then some (total, g) else none
        | none => none
    else none
  | [] => none

/-- Scan `re.findall(fund_size_pattern, ·)`: the captured suffix words of the
leftmost non-overlapping matches (the lookahead consumes nothing, so the
scan resumes right after each suffix). -/
def scanFundSizeAux : Nat → List Char → List String
  | 0, _ => []
  | _ + 1, [] => []
  | fuel + 1, c :: cs =>
    match matchFundSize (c :: cs) with
    | some (n, g) => g :: scanFundSizeAux fuel ((c :: cs).drop n)
    | none => scanFundSizeAux fuel cs

/-- All captured groups of `fund_size_pattern` in the text. -/
def scanFundSize (l : List Char) : List String := scanFundSizeAux l.length l

/-- The cue alternation of `ticket_keywords`
(`cheque|check|ticket|initial investment|typical investment|writes`,
case-insensitive, tried in order).  The alternatives pairwise disagree at
some position, so at most one can match at a given start; the engine
never has to fall back to a later alternative after a failed
continuation. -/
def cueLits : List String :=
  ["cheque", "check", "ticket", "initial investment", "typical investment", "writes"]

/-- The `[-toâ€“]` class of `ticket_keywords` (a character class: the
characters `-`, `t`, `o` and the three mojibake characters of a
mis-decoded en dash), case-insensitive under `(?i)`. -/
def isRangeSep (c : Char) : Bool :=
  c == '-' || c == 't' || c == 'o' || c == 'T' || c == 'O' ||
  c == 'â' || c == 'Â' || c == '€' || c == '“'

/-- Group `\$?[\d,.]+` at the head of `r`: length consumed.  If the optional
`\$` is taken but no amount character follows, the retry without it fails
too (`$` is not an amount character). -/
def matchMoneyTail (r : List Char) : Option Nat :=
  match r with
  | c :: cs =>
    if c == '$' then
      let d := cs.takeWhile isAmtChar
      if d.isEmpty then none else some (1 + d.length)
    else
      let d := r.takeWhile isAmtChar
      if d.isEmpty then none else some d.length
  | [] => none

/-- Group `\s?\$?[\d,.]+` after the range separator, with the regex engine's
greedy-then-backtrack treatment of `\s?`. -/
def rangeAfterSep (r : List Char) : Option Nat :=
  match r with
  | c :: cs =>
    if isPySpace c then
      match matchMoneyTail cs with
      | some n => some (1 + n)
      | none => matchMoneyTail (c :: cs)
    else matchMoneyTail (c :: cs)
  | [] => none

/-- The optional range group `(?:\s?[-toâ€“]\s?\$?[\d,.]+)?` of
`ticket_keywords` at the head of `l`: length consumed (0 when the group
matches empty). -/
def matchRange (l : List Char) : Nat :=
  let attempt : List Char → Option Nat := fun r =>
    match r with
    | c :: cs =>
      if isRangeSep c then
        match rangeAfterSep cs with
        | some n => some (1 + n)
        | none => none
      else none
    | [] => none
  match l with
  | c :: cs =>
    if isPySpace c then
      match attempt cs with
      | some n => 1 + n
      | none =>
        match attempt (c :: cs) with
        | some n => n
        | none => 0
    else
      match attempt (c :: cs) with
      | some n => n
      | none => 0
  | [] => 0

/-- The suffix alternation of `ticket_keywords`
(`million|M|billion|B`, case-insensitive, tried in order). -/
def ticketSuffixLits : List String := ["million", "M", "billion", "B"]

/-- The optional group `(?:\s?(million|M|billion|B))?` of
`ticket_keywords` at the head of `r`: length consumed and the text
captured as group 3 (empty when the group matches empty; the source never
reads this group). -/
def tSuffix (r : List Char) : Nat × String :=
  match r with
  | c :: cs =>
    if isPySpace c then
      match firstLitCI ticketSuffixLits cs with
      | some lit => (1 + lit.length, String.mk (cs.take lit.length))
      | none =>
        match firstLitCI ticketSuffixLits (c :: cs) with
        | some lit => (lit.length, String.mk ((c :: cs).take lit.length))
        | none => (0, "")
    else
      match firstLitCI ticketSuffixLits (c :: cs) with
      | some lit => (lit.length, String.mk ((c :: cs).take lit.length))
      | none => (0, "")
  | [] => (0, "")

/-- The amount group
`(\$[\d,.]+(?:\s?[-toâ€“]\s?\$?[\d,.]+)?(?:\s?(million|M|billion|B))?)`
of `ticket_keywords` at the head of `l`: length consumed, the text of
group 2 (the whole amount) and of group 3 (the suffix). -/
def matchTicketAmount (l : List Char) : Option (Nat × String × String) :=
  match l with
  | c :: cs =>
    if c == '$' then
      let digits := cs.takeWhile isAmtChar
      if digits.isEmpty then none
      else
        let p1 := 1 + digits.length
        let rlen := matchRange (l.drop p1)
        let s := tSuffix (l.drop (p1 + rlen))
        let total := p1 + rlen + s.1
        some (total, String.mk (l.take total), s.2)
    else none
  | [] => none

/-- Lazy `.*?` followed by the amount group: the lazy dot takes the fewest
characters (none of them newlines) for which the amount group matches.
Returns the total length from the current position to the end of the
amount, with groups 2 and 3. -/
def lazyDotAmount : List Char → Option (Nat × String × String)
  | [] => none
  | c :: cs =>
    match matchTicketAmount (c :: cs) with
    | some r => some r
    | none =>
      if c == '\n' then none
      else
        match lazyDotAmount cs with
        | some (m, g2, g3) => some (m + 1, g2, g3)
        | none => none

/-- One attempted match of `ticket_keywords` at the head of `l`: length
consumed and the triple of captured groups that `re.findall` returns for
this three-group pattern. -/
def matchTicket (l : List Char) : Option (Nat × (String × String × String)) :=
  match firstLitCI cueLits l with
  | none => none
  | some cue =>
    match lazyDotAmount (l.drop cue.length) with
    | none => none
    | some (n, g2, g3) =>
      some (cue.length + n, (String.mk (l.take cue.length), g2, g3))

/-- Scan `re.findall(ticket_keywords, ·)`: group triples of the leftmost
non-overlapping matches. -/
def scanTicketAux : Nat → List Char → List (String × String × String)
  | 0, _ => []
  | _ + 1, [] => []
  | fuel + 1, c :: cs =>
    match matchTicket (c :: cs) with
    | some (n, t) => t :: scanTicketAux fuel ((c :: cs).drop n)
    | none => scanTicketAux fuel cs

/-- All group triples of `ticket_keywords` in the text. -/
def scanTicket (l : List Char) : List (String × String × String) :=
  scanTicketAux l.length l

/-- The `stage_keywords` vocabulary of the source. -/
def stage_keywords : List String :=
  ["seed", "early-stage", "growth-stage", "late-stage", "Series A", "Series B"]

/-- The `sector_keywords` vocabulary of the source. -/
def sector_keywords : List String :=
  ["consumer tech", "fintech", "edtech", "healthtech", "sustainability", "AI", "crypto"]

/-- The `geography_keywords` vocabulary of the source. -/
def geography_keywords : List String :=
  ["India", "Southeast Asia", "Singapore", "Indonesia", "Asia"]

/-- One extracted entry, the dictionary built by `extract_data_from_text`
(`None` becomes `Option.none`). -/
structure InvestorRecord where
  fund : String
  ticket_size : Option String
  fund_size : Option String
  sectors : String
  geographies : String
  stage : String
  source : String
  timestamp : String
deriving Repr, DecidableEq

/-- Python `extract_data_from_text(text, url)`.  The `list(set(...))`
deduplication is modelled by `List.dedup` (the set iteration order is
arbitrary in Python; no claim depends on it).  The wall-clock timestamp
`datetime.now().strftime(...)` is passed in as the parameter `now`. -/
def extract_data_from_text (text url now : String) : List InvestorRecord :=
  let funds := (scanFund text.data).dedup
  let fund_size := scanFundSize text.data
  let ticket_info := scanTicket text.data
  let low := lowerChars text.data
  let stages := stage_keywords.filter fun s => strContains low (lowerChars s.data)
  let sectors := sector_keywords.filter fun s => strContains low (lowerChars s.data)
  let geographies := geography_keywords.filter fun g => strContains low (lowerChars g.data)
  funds.map fun fund =>
    { fund := fund
      ticket_size := ticket_info.head?.map fun t => t.2.1
      fund_size := fund_size.head?
      sectors := joinComma sectors
      geographies := joinComma geographies
      stage := joinComma stages
      source := url
      timestamp := now }

/-- One row of the sqlite `investors` table: the columns of
`InvestorRecord` plus the `INTEGER PRIMARY KEY AUTOINCREMENT` surrogate
`id` (a `NULL` text column is `Option.none`). -/
structure DBRow where
  id : Nat
  fund : String
  ticket_size : Option String
  fund_size : Option String
  sectors : String
  geographies : String
  stage : String
  source : String
  timestamp : String
deriving Repr, DecidableEq

/-- The `investors` table: its rows in insertion order plus the next
auto-increment id (every stored id is below it). -/
structure DB where
  rows : List DBRow
  nextId : Nat
deriving Repr, DecidableEq

/-- The row inserted for one entry, with the auto-increment id `i`. -/
def rowOfEntry (i : Nat) (e : InvestorRecord) : DBRow :=
  { id := i
    fund := e.fund
    ticket_size := e.ticket_size
    fund_size := e.fund_size
    sectors := e.sectors
    geographies := e.geographies
    stage := e.stage
    source := e.source
    timestamp := e.timestamp }

/-- The record stored in a row, id forgotten. -/
def rowData (r : DBRow) : InvestorRecord :=
  { fund := r.fund
    ticket_size := r.ticket_size
    fund_size := r.fund_size
    sectors := r.sectors
    geographies := r.geographies
    stage := r.stage
    source := r.source
    timestamp := r.timestamp }

/-- Python `insert_data_to_db(entries)`: one `INSERT` per entry, each
appending a fresh row whose id is the table's auto-increment counter. -/
def insert_data_to_db (db : DB) : List InvestorRecord → DB
  | [] => db
  | e :: es =>
    insert_data_to_db { rows := db.rows ++ [rowOfEntry db.nextId e], nextId := db.nextId + 1 } es

/-- The rows produced by inserting `es` starting at auto-increment id `n`. -/
def freshRows (n : Nat) : List InvestorRecord → List DBRow
  | [] => []
  | e :: es => rowOfEntry n e :: freshRows (n + 1) es

/-- One fetched article, the dictionary appended by
`fetch_articles_from_user_input`. -/
structure Article where
  url : String
  text : String
deriving Repr, DecidableEq

/-- Python `fetch_articles_from_user_input`, with the library calls of the
try-block (`requests.get`, `BeautifulSoup`, paragraph join) abstracted as
`fetchOne : url ↦ Except exceptionMessage pageText`.  Returns the article
list together with the `st.warning` messages issued for failed URLs.  The
loop is sequential; an exception on one URL only adds a warning and moves
on to the next. -/
def fetch_articles_from_user_input (fetchOne : String → Except String String) :
    List String → List Article × List String
  | [] => ([], [])
  | u :: us =>
    let rest := fetch_articles_from_user_input fetchOne us
    match fetchOne u with
    | .ok t => (⟨u, t⟩ :: rest.1, rest.2)
    | .error e => (rest.1, ("Failed to fetch " ++ u ++ ": " ++ e) :: rest.2)

/-- One pandas filter step of `streamlit_ui`:
`df[df[col].str.contains('|'.join(sel))]`.  The selected values come from
the table's `sectors`/`geographies` columns, which hold comma-joins of
the fixed vocabularies and so contain no regex metacharacters; the
alternation built by `'|'.join` is then an OR-combined substring test. -/
def pandasFilter (rows : List DBRow) (col : DBRow → String) (sel : List String) : List DBRow :=
  rows.filter fun r => sel.any fun f => strContains (col r).data f.data

/-- The read/filter/display part of `streamlit_ui` (lines 105-119 of the
source): read the full `investors` table, apply the optional sector and
geography filters, and return the displayed rows together with the store
as it stands afterwards (the source runs only `SELECT` here; rendering
the source column as a link and dropping the id column happen on the
in-memory frame). -/
def streamlit_view (db : DB) (sectorSel geoSel : List String) : List DBRow × DB :=
  let df := db.rows
  let df1 := if sectorSel.isEmpty then df else pandasFilter df (fun r => r.sectors) sectorSel
  let df2 := if geoSel.isEmpty then df1 else pandasFilter df1 (fun r => r.geographies) geoSel
  (df2, db)

/-! ## Helper lemmas -/

theorem strStarts_iff (p l : List Char) : strStarts p l = true ↔ ∃ t, l = p ++ t := by
  induction p generalizing l with
  | nil => simp [strStarts]
  | cons a xs ih =>
    cases l with
    | nil => simp [strStarts]
    | cons b ys =>
      simp only [strStarts, Bool.and_eq_true, beq_iff_eq, ih, List.cons_append,
        List.cons.injEq]
      constructor
      · rintro ⟨rfl, t, rfl⟩; exact ⟨t, rfl, rfl⟩
      · rintro ⟨t, rfl, rfl⟩; exact ⟨rfl, t, rfl⟩

theorem strContains_iff (h n : List Char) :
    strContains h n = true ↔ ∃ l r, h = l ++ n ++ r := by
  induction h with
  | nil =>
    simp only [strContains, strStarts_iff]
    constructor
    · rintro ⟨t, ht⟩
      rcases List.append_eq_nil.mp ht.symm with ⟨rfl, rfl⟩
      exact ⟨[], [], rfl⟩
    · rintro ⟨l, r, hlr⟩
      rcases List.append_eq_nil.mp hlr.symm with ⟨hl, rfl⟩
      rcases List.append_eq_nil.mp hl with ⟨rfl, rfl⟩
      exact ⟨[], rfl⟩
  | cons c t ih =>
    simp only [strContains, Bool.or_eq_true, strStarts_iff, ih]
    constructor
    · rintro (⟨u, hu⟩ | ⟨l, r, rfl⟩)
      · exact ⟨[], u, by simpa using hu⟩
      · exact ⟨c :: l, r, rfl⟩
    · rintro ⟨l, r, hlr⟩
      cases l with
      | nil => exact Or.inl ⟨r, by simpa using hlr⟩
      | cons x xs =>
        rcases List.cons_eq_cons.mp hlr with ⟨rfl, rfl⟩
        exact Or.inr ⟨xs, r, rfl⟩

theorem firstLit_sound (lits : List String) (l x : List Char)
    (h : firstLit lits l = some x) :
    (∃ s ∈ lits, x = s.data) ∧ ∃ t, l = x ++ t := by
  induction lits with
  | nil => simp [firstLit] at h
  | cons s ss ih =>
    rw [firstLit] at h
    by_cases hs : strStarts s.data l = true
    · rw [if_pos hs] at h
      cases h
      exact ⟨⟨s, by simp, rfl⟩, (strStarts_iff _ _).mp hs⟩
    · rw [if_neg hs] at h
      rcases ih h with ⟨⟨s', hs', rfl⟩, ht⟩
      exact ⟨⟨s', by simp [hs'], rfl⟩, ht⟩

theorem takeWhile_self_append (p : Char → Bool) (l : List Char) :
    l = l.takeWhile p ++ l.drop (l.takeWhile p).length := by
  induction l with
  | nil => rfl
  | cons a t ih =>
    by_cases h : p a = true
    · simp only [List.takeWhile_cons, h, if_pos, List.length_cons, List.drop_succ_cons]
      exact congrArg (a :: ·) ih
    · simp [List.takeWhile_cons, h]

theorem takeWhile_mem (p : Char → Bool) (l : List Char) (x : Char)
    (hx : x ∈ l.takeWhile p) : p x = true := by
  induction l with
  | nil => simp [List.takeWhile] at hx
  | cons a t ih =>
    rw [List.takeWhile_cons] at hx
    by_cases h : p a = true
    · rw [if_pos h] at hx
      rcases List.mem_cons.mp hx with rfl | hx
      · exact h
      · exact ih hx
    · rw [if_neg h] at hx; simp at hx

theorem takeWhile_of_all_append (p : Char → Bool) (w : List Char) (d : Char)
    (rest : List Char) (hw : ∀ x ∈ w, p x = true) (hd : p d = false) :
    (w ++ d :: rest).takeWhile p = w := by
  induction w with
  | nil => simp [List.takeWhile_cons, hd]
  | cons a t ih =>
    have ha : p a = true := hw a (by simp)
    simp only [List.cons_append, List.takeWhile_cons, ha, if_pos]
    exact congrArg (a :: ·) (ih fun x hx => hw x (by simp [hx]))

theorem take_append_len (a b : List Char) (k : Nat) :
    (a ++ b).take (a.length + k) = a ++ b.take k := by
  induction a with
  | nil => simp
  | cons x xs ih => simp [List.take_succ_cons, Nat.succ_add, ih]

theorem drop_append_len (a b : List Char) : (a ++ b).drop a.length = b := by
  induction a with
  | nil => simp
  | cons x xs ih => simp [ih]

/-- Shape of a `fund_pattern` match: exactly one capitalized word (an
upper-case letter followed by at least one more letter), one whitespace
character, and one word of the fund-suffix vocabulary. -/
def twoWordFund (f : List Char) : Bool :=
  match f with
  | c :: cs =>
    isUpperAZ c &&
      (let w := cs.takeWhile isAlphaChar
       !w.isEmpty &&
         (match cs.drop w.length with
          | d :: rest => isPySpace d && fundSuffixLits.any fun s => s.data == rest
          | [] => false))
  | [] => false

theorem take_two_words (c d : Char) (w sd t : List Char) :
    (c :: (w ++ d :: (sd ++ t))).take (1 + w.length + 1 + sd.length) =
      c :: (w ++ d :: sd) := by
  have h1 : 1 + w.length + 1 + sd.length = (w.length + (1 + sd.length)) + 1 := by omega
  rw [h1, List.take_succ_cons, take_append_len]
  have h2 : 1 + sd.length = sd.length + 1 := Nat.add_comm 1 sd.length
  rw [h2, List.take_succ_cons]
  have h3 : (sd ++ t).take sd.length = sd := by simp
  rw [h3]

theorem matchFund_shape (l : List Char) (n : Nat) (h : matchFund l = some n) :
    twoWordFund (l.take n) = true := by
  match l with
  | [] => simp [matchFund] at h
  | c :: cs =>
    simp only [matchFund] at h
    split at h <;> rename_i hc
    · split at h <;> rename_i hw
      · simp at h
      · split at h
        · simp at h
        · rename_i d rest hd
          split at h <;> rename_i hds
          · split at h
            · rename_i suf hfl
              cases h
              rcases firstLit_sound _ _ _ hfl with ⟨⟨s, hs, rfl⟩, t, ht⟩
              have hcs : cs = cs.takeWhile isAlphaChar ++ d :: (s.data ++ t) := by
                conv_lhs => rw [takeWhile_self_append isAlphaChar cs]
                rw [hd, ht]
              have hccs : c :: cs = c :: (cs.takeWhile isAlphaChar ++ d :: (s.data ++ t)) := by
                conv_lhs => rw [hcs]
              have htake :
                  (c :: cs).take (1 + (cs.takeWhile isAlphaChar).length + 1 + s.data.length) =
                    c :: (cs.takeWhile isAlphaChar ++ d :: s.data) := by
                rw [hccs]
                exact take_two_words c d _ _ _
              rw [htake]
              have hwall : ∀ x ∈ cs.takeWhile isAlphaChar, isAlphaChar x = true :=
                fun x hx => takeWhile_mem _ _ _ hx
              have hdal : isAlphaChar d = false := by
                revert hds
                unfold isPySpace isAlphaChar
                simp only [Bool.or_eq_true, beq_iff_eq]
                rintro (((((rfl | rfl) | rfl) | rfl) | rfl) | rfl) <;> rfl
              have hwne : (cs.takeWhile isAlphaChar).isEmpty = false := by
                cases hwe : (cs.takeWhile isAlphaChar).isEmpty
                · rfl
                · exact absurd hwe hw
              rw [twoWordFund]
              simp only [hc, Bool.true_and]
              rw [takeWhile_of_all_append _ _ _ _ hwall hdal]
              simp only [hwne, Bool.not_false, Bool.true_and]
              rw [drop_append_len]
              simp only [hds, Bool.true_and, List.any_eq_true]
              exact ⟨s, hs, by simp⟩
            · simp at h
          · simp at h
    · simp at h

theorem scanFundAux_mem (fuel : Nat) (l : List Char) (f : String)
    (h : f ∈ scanFundAux fuel l) :
    ∃ l' n, matchFund l' = some n ∧ f = String.mk (l'.take n) := by
  induction fuel generalizing l with
  | zero => simp [scanFundAux] at h
  | succ k ih =>
    cases l with
    | nil => simp [scanFundAux] at h
    | cons c cs =>
      rw [scanFundAux] at h
      rcases hm : matchFund (c :: cs) with _ | n
      · rw [hm] at h
        exact ih _ h
      · rw [hm] at h
        rcases List.mem_cons.mp h with rfl | h2
        · exact ⟨c :: cs, n, hm, rfl⟩
        · exact ih _ h2

theorem scanFund_mem (l : List Char) (f : String) (h : f ∈ scanFund l) :
    twoWordFund f.data = true := by
  rcases scanFundAux_mem _ _ _ h with ⟨l', n, hm, rfl⟩
  exact matchFund_shape l' n hm

theorem sizeSuffixAt_mem (r : List Char) (k : Nat) (g : String)
    (h : sizeSuffixAt r = some (k, g)) : g ∈ sizeSuffixLits := by
  rw [sizeSuffixAt.eq_def] at h
  rcases r with _ | ⟨c, cs⟩
  · simp at h
  · simp only at h
    split at h
    · split at h
      · rename_i lit hfl
        cases h
        rcases firstLit_sound _ _ _ hfl with ⟨⟨s, hs, rfl⟩, _⟩
        simpa using hs
      · split at h
        · rename_i lit hfl
          cases h
          rcases firstLit_sound _ _ _ hfl with ⟨⟨s, hs, rfl⟩, _⟩
          simpa using hs
        · simp at h
    · split at h
      · rename_i lit hfl
        cases h
        rcases firstLit_sound _ _ _ hfl with ⟨⟨s, hs, rfl⟩, _⟩
        simpa using hs
      · simp at h

theorem matchFundSize_mem (l : List Char) (k : Nat) (g : String)
    (h : matchFundSize l = some (k, g)) : g ∈ sizeSuffixLits := by
  rw [matchFundSize.eq_def] at h
  rcases l with _ | ⟨c, cs⟩
  · simp at h
  · simp only at h
    split at h
    · split at h
      · simp at h
      · split at h
        · rename_i hp
          split at h
          · cases h
            exact sizeSuffixAt_mem _ _ _ hp
          · simp at h
        · simp at h
    · simp at h

theorem scanFundSizeAux_mem (fuel : Nat) (l : List Char) (g : String)
    (h : g ∈ scanFundSizeAux fuel l) : g ∈ sizeSuffixLits := by
  induction fuel generalizing l with
  | zero => simp [scanFundSizeAux] at h
  | succ k ih =>
    cases l with
    | nil => simp [scanFundSizeAux] at h
    | cons c cs =>
      rw [scanFundSizeAux] at h
      rcases hm : matchFundSize (c :: cs) with _ | ⟨n, g'⟩
      · rw [hm] at h
        exact ih _ h
      · rw [hm] at h
        rcases List.mem_cons.mp h with rfl | h2
        · exact matchFundSize_mem _ _ _ hm
        · exact ih _ h2

theorem scanFundSize_mem (l : List Char) (g : String) (h : g ∈ scanFundSize l) :
    g ∈ sizeSuffixLits :=
  scanFundSizeAux_mem _ _ _ h

theorem insert_data_spec (es : List InvestorRecord) (db : DB) :
    insert_data_to_db db es = ⟨db.rows ++ freshRows db.nextId es, db.nextId + es.length⟩ := by
  induction es generalizing db with
  | nil => simp [insert_data_to_db, freshRows]
  | cons e rest ih =>
    rw [insert_data_to_db, freshRows, ih]
    simp [List.append_assoc]
    omega

theorem freshRows_length (n : Nat) (es : List InvestorRecord) :
    (freshRows n es).length = es.length := by
  induction es generalizing n with
  | nil => rfl
  | cons e rest ih => simp [freshRows, ih]

theorem freshRows_data (n : Nat) (es : List InvestorRecord) :
    (freshRows n es).map rowData = es := by
  induction es generalizing n with
  | nil => rfl
  | cons e rest ih => simp [freshRows, ih, rowData, rowOfEntry]

theorem freshRows_id_bounds (n : Nat) (es : List InvestorRecord) (r : DBRow)
    (hr : r ∈ freshRows n es) : n ≤ r.id ∧ r.id < n + es.length := by
  induction es generalizing n with
  | nil => simp [freshRows] at hr
  | cons e rest ih =>
    rw [freshRows] at hr
    rcases List.mem_cons.mp hr with rfl | hr2
    · simp [rowOfEntry]
    · have hb := ih (n + 1) hr2
      constructor <;> [omega; (simp only [List.length_cons]; omega)]

theorem freshRows_id_nodup (n : Nat) (es : List InvestorRecord) :
    ((freshRows n es).map (fun r => r.id)).Nodup := by
  induction es generalizing n with
  | nil => simp [freshRows]
  | cons e rest ih =>
    rw [freshRows]
    simp only [List.map_cons, List.nodup_cons]
    refine ⟨?_, ih (n + 1)⟩
    intro hmem
    rcases List.mem_map.mp hmem with ⟨r, hr, hid⟩
    have hb := freshRows_id_bounds _ _ _ hr
    rw [rowOfEntry] at hid
    simp at hid
    omega

theorem extract_eq (text url now : String) :
    extract_data_from_text text url now =
      ((scanFund text.data).dedup).map (fun fund =>
        { fund := fund
          ticket_size := (scanTicket text.data).head?.map fun t => t.2.1
          fund_size := (scanFundSize text.data).head?
          sectors := joinComma (sector_keywords.filter fun k =>
            strContains (lowerChars text.data) (lowerChars k.data))
          geographies := joinComma (geography_keywords.filter fun k =>
            strContains (lowerChars text.data) (lowerChars k.data))
          stage := joinComma (stage_keywords.filter fun k =>
            strContains (lowerChars text.data) (lowerChars k.data))
          source := url
          timestamp := now }) := rfl

/-! ## Claim theorems -/

/-- C1: for every text and source URL, `extract_data_from_text` returns
exactly one record per distinct `fund_pattern` match (the deduplicated
match list), all records share the same `ticket_size`, `fund_size`,
`sectors`, `geographies` and `stage`, and a text with zero fund-suffix
matches yields the empty list, its other findings discarded. -/
theorem extract_record_count_uniform_fields (text url now : String) :
    (extract_data_from_text text url now).length = ((scanFund text.data).dedup).length ∧
    ((scanFund text.data).dedup).Nodup ∧
    (∀ r ∈ extract_data_from_text text url now,
      ∀ r' ∈ extract_data_from_text text url now,
        r.ticket_size = r'.ticket_size ∧ r.fund_size = r'.fund_size ∧
        r.sectors = r'.sectors ∧ r.geographies = r'.geographies ∧ r.stage = r'.stage) ∧
    (scanFund text.data = [] → extract_data_from_text text url now = []) := by
  refine ⟨?_, List.nodup_dedup _, ?_, ?_⟩
  · rw [extract_eq]
    exact List.length_map _ _
  · intro r hr r' hr'
    rw [extract_eq] at hr hr'
    rcases List.mem_map.mp hr with ⟨f, _, rfl⟩
    rcases List.mem_map.mp hr' with ⟨f', _, rfl⟩
    exact ⟨rfl, rfl, rfl, rfl, rfl⟩
  · intro h
    rw [extract_eq, h]
    rfl

/-- Record extracted for `Alpha Capital` from the two-fund witness text. -/
def recAlphaCapital : InvestorRecord :=
  ⟨"Alpha Capital", none, none, "", "", "", "u", "t"⟩

/-- Record extracted for `Beta Ventures` from the two-fund witness text. -/
def recBetaVentures : InvestorRecord :=
  ⟨"Beta Ventures", none, none, "", "", "", "u", "t"⟩

/-- Witness for C1: a fund-free text yields no records, and the two
records of a two-fund text agree on all shared fields. -/
theorem extract_record_count_uniform_fields_witness :
    extract_data_from_text "no funds are mentioned here" "u" "t" = [] ∧
    (recAlphaCapital.ticket_size = recBetaVentures.ticket_size ∧
      recAlphaCapital.fund_size = recBetaVentures.fund_size ∧
      recAlphaCapital.sectors = recBetaVentures.sectors ∧
      recAlphaCapital.geographies = recBetaVentures.geographies ∧
      recAlphaCapital.stage = recBetaVentures.stage) :=
  ⟨(extract_record_count_uniform_fields "no funds are mentioned here" "u" "t").2.2.2
      (by decide),
    (extract_record_count_uniform_fields "Alpha Capital met Beta Ventures" "u" "t").2.2.1
      recAlphaCapital (by decide) recBetaVentures (by decide)⟩

/-- C5: every emitted record carries, identically, the comma-and-space
joins — in fixed vocabulary order — of exactly those stage, sector and
geography keywords whose lowercase form occurs as a substring of the
lowercased article text; the second conjunct pins down `strContains` as
genuine substring occurrence. -/
theorem extract_keyword_joins (text url now : String) :
    (∀ r ∈ extract_data_from_text text url now,
      r.stage = joinComma (stage_keywords.filter fun k =>
        strContains (lowerChars text.data) (lowerChars k.data)) ∧
      r.sectors = joinComma (sector_keywords.filter fun k =>
        strContains (lowerChars text.data) (lowerChars k.data)) ∧
      r.geographies = joinComma (geography_keywords.filter fun k =>
        strContains (lowerChars text.data) (lowerChars k.data))) ∧
    (∀ needle hay : List Char,
      strContains hay needle = true ↔ ∃ l r, hay = l ++ needle ++ r) := by
  refine ⟨?_, fun needle hay => strContains_iff hay needle⟩
  intro r hr
  rw [extract_eq] at hr
  rcases List.mem_map.mp hr with ⟨f, _, rfl⟩
  exact ⟨rfl, rfl, rfl⟩

/-- Record extracted for the keyword-rich witness text. -/
def recGammaVentures : InvestorRecord :=
  ⟨"Gamma Ventures", none, none, "fintech, AI", "India, Singapore", "seed", "u", "t"⟩

/-- Witness for C5 at a keyword-rich text. -/
theorem extract_keyword_joins_witness :
    recGammaVentures.stage = joinComma (stage_keywords.filter fun k =>
      strContains
        (lowerChars "Gamma Ventures backs seed fintech and AI startups in India and Singapore".data)
        (lowerChars k.data)) ∧
    recGammaVentures.sectors = joinComma (sector_keywords.filter fun k =>
      strContains
        (lowerChars "Gamma Ventures backs seed fintech and AI startups in India and Singapore".data)
        (lowerChars k.data)) ∧
    recGammaVentures.geographies = joinComma (geography_keywords.filter fun k =>
      strContains
        (lowerChars "Gamma Ventures backs seed fintech and AI startups in India and Singapore".data)
        (lowerChars k.data)) :=
  (extract_keyword_joins
    "Gamma Ventures backs seed fintech and AI startups in India and Singapore" "u" "t").1
    recGammaVentures (by decide)

/-- C6: the extractor is a total function and represents every pattern
non-match as `none` (`ticket_size`, `fund_size`) or the empty string
(`sectors`, `geographies`, `stage`) in each emitted record — no input
raises an error. -/
theorem extract_total_defaults (text url now : String) :
    ∀ r ∈ extract_data_from_text text url now,
      (scanTicket text.data = [] → r.ticket_size = none) ∧
      (scanFundSize text.data = [] → r.fund_size = none) ∧
      (sector_keywords.filter (fun k =>
          strContains (lowerChars text.data) (lowerChars k.data)) = [] →
        r.sectors = "") ∧
      (geography_keywords.filter (fun k =>
          strContains (lowerChars text.data) (lowerChars k.data)) = [] →
        r.geographies = "") ∧
      (stage_keywords.filter (fun k =>
          strContains (lowerChars text.data) (lowerChars k.data)) = [] →
        r.stage = "") := by
  intro r hr
  rw [extract_eq] at hr
  rcases List.mem_map.mp hr with ⟨f, _, rfl⟩
  refine ⟨fun h => ?_, fun h => ?_, fun h => ?_, fun h => ?_, fun h => ?_⟩ <;>
    simp only [h] <;> rfl

/-- Record extracted from the match-free witness text. -/
def recZetaPartners : InvestorRecord :=
  ⟨"Zeta Partners", none, none, "", "", "", "u", "t"⟩

/-- Witness for C6: a text whose only pattern hit is the fund name gets
`none` and empty-string defaults in its record. -/
theorem extract_total_defaults_witness :
    recZetaPartners.ticket_size = none ∧ recZetaPartners.fund_size = none ∧
    recZetaPartners.sectors = "" ∧ recZetaPartners.geographies = "" ∧
    recZetaPartners.stage = "" := by
  have h := extract_total_defaults "Zeta Partners" "u" "t" recZetaPartners (by decide)
  exact ⟨h.1 (by decide), h.2.1 (by decide), h.2.2.1 (by decide),
    h.2.2.2.1 (by decide), h.2.2.2.2 (by decide)⟩

/-- Record extracted from the fund-size witness text. -/
def recAcmeCapital : InvestorRecord :=
  ⟨"Acme Capital", none, some "million", "AI", "", "", "u", "t"⟩

/-- C2 counterexample: for the text `Acme Capital raised a $50 million
fund.`, the first (and only) dollar amount carrying a size suffix and
followed by `fund` is `$50 million`, yet the emitted record's
`fund_size` is `million` — `re.findall` returns the pattern's single
capture group, the suffix word, not the amount. -/
theorem extract_fund_size_counterexample :
    (extract_data_from_text "Acme Capital raised a $50 million fund." "u" "t").map
        (fun r => r.fund_size) = [some "million"] ∧
    strContains "Acme Capital raised a $50 million fund.".data "$50 million".data = true ∧
    some ("million" : String) ≠ some "$50 million" := by decide

/-- C2 (amended): the `fund_size` field of every emitted record is the
captured suffix word (`million`/`billion`/`M`/`B`) of the first
`fund_size_pattern` match — not the dollar amount — or `none` when there
is no match; the value is the head of the scan and so identical for
every fund of the article. -/
theorem extract_fund_size_amended (text url now : String) :
    (∀ r ∈ extract_data_from_text text url now,
      r.fund_size = (scanFundSize text.data).head?) ∧
    (∀ g ∈ scanFundSize text.data, g ∈ sizeSuffixLits) := by
  refine ⟨?_, fun g hg => scanFundSize_mem _ _ hg⟩
  intro r hr
  rw [extract_eq] at hr
  rcases List.mem_map.mp hr with ⟨f, _, rfl⟩
  rfl

/-- Witness for the amended C2 at the `$50 million fund` text. -/
theorem extract_fund_size_amended_witness :
    recAcmeCapital.fund_size =
      (scanFundSize "Acme Capital raised a $50 million fund.".data).head? ∧
    ("million" : String) ∈ sizeSuffixLits :=
  ⟨(extract_fund_size_amended "Acme Capital raised a $50 million fund." "u" "t").1
      recAcmeCapital (by decide),
    (extract_fund_size_amended "Acme Capital raised a $50 million fund." "u" "t").2
      "million" (by decide)⟩

/-- The worked example text of the specification. -/
def seqText : String :=
  "Sequoia Capital writes cheques of $500,000 to $1 million in seed fintech startups in India"

/-- The record actually extracted from `seqText`. -/
def recSequoia : InvestorRecord :=
  ⟨"Sequoia Capital", some "$500,000", none, "fintech", "India", "seed", "u", "t"⟩

/-- C3 counterexample: on the specification's own example text the single
record's `ticket_size` is `$500,000`, not a string covering the
`$500,000 to $1 million` segment — the `[-toâ€“]` in `ticket_keywords`
is a character class, so the two-character separator `to` never matches
and the range part of the amount group fails. -/
theorem extract_ticket_size_counterexample :
    extract_data_from_text seqText "u" "t" = [recSequoia] ∧
    recSequoia.ticket_size ≠ some "$500,000 to $1 million" := by decide

/-- C3 (amended): the `ticket_size` of every emitted record is group 2
(the dollar-amount portion) of the first `ticket_keywords` match in the
whole text, identical for every fund; on the example text this yields
exactly one record with fund `Sequoia Capital`, ticket_size `$500,000`
(the range stops before ` to $1 million`), stage `seed`, sectors
`fintech` and geographies `India`. -/
theorem extract_ticket_size_amended (text url now : String) :
    (∀ r ∈ extract_data_from_text text url now,
      r.ticket_size = (scanTicket text.data).head?.map fun t => t.2.1) ∧
    extract_data_from_text seqText "u" "t" = [recSequoia] := by
  refine ⟨?_, by decide⟩
  intro r hr
  rw [extract_eq] at hr
  rcases List.mem_map.mp hr with ⟨f, _, rfl⟩
  rfl

/-- Witness for the amended C3 at the example text. -/
theorem extract_ticket_size_amended_witness :
    recSequoia.ticket_size = (scanTicket seqText.data).head?.map fun t => t.2.1 :=
  (extract_ticket_size_amended seqText "u" "t").1 recSequoia (by decide)

/-- Is the string one capitalized word (upper-case letter followed by
letters)? -/
def capWordStr (w : String) : Bool :=
  match w.data with
  | c :: cs => isUpperAZ c && cs.all isAlphaChar
  | [] => false

/-- Is the word list a capitalized-word sequence ending in a word of the
fund-suffix vocabulary?  This is the claim's reading of a fund name. -/
def capSeqEndsWithFundSuffix (ws : List String) : Bool :=
  ws.all capWordStr &&
    (match ws.getLast? with
     | some w => fundSuffixLits.contains w
     | none => false)

/-- C4 counterexample: `Accel India Ventures` is a capitalized-word
sequence ending in the suffix word `Ventures` and occurs verbatim in the
text, yet the extractor's fund set for that text is exactly
`{India Ventures}` — `fund_pattern` matches a single capitalized word
before the suffix, so it does not return the set of capitalized-word
sequences ending in a suffix word. -/
theorem extract_fund_names_counterexample :
    capSeqEndsWithFundSuffix ["Accel", "India", "Ventures"] = true ∧
    strContains "Accel India Ventures is great".data "Accel India Ventures".data = true ∧
    (extract_data_from_text "Accel India Ventures is great" "u" "t").map (fun r => r.fund)
      = ["India Ventures"] ∧
    "Accel India Ventures" ∉
      (extract_data_from_text "Accel India Ventures is great" "u" "t").map (fun r => r.fund) := by
  decide

/-- C4 (amended): the fund names are the deduplicated matches of a
left-to-right non-overlapping scan of `fund_pattern`; every name has the
shape of exactly one capitalized word (`[A-Z][a-zA-Z]+`), one whitespace
character and one suffix-vocabulary word — a longer capitalized sequence
contributes only its final two words — and each name appears at most
once per article. -/
theorem extract_fund_names_amended (text url now : String) :
    (extract_data_from_text text url now).map (fun r => r.fund) =
      (scanFund text.data).dedup ∧
    ((extract_data_from_text text url now).map (fun r => r.fund)).Nodup ∧
    (∀ f ∈ (extract_data_from_text text url now).map (fun r => r.fund),
      twoWordFund f.data = true) := by
  have hmap : (extract_data_from_text text url now).map (fun r => r.fund) =
      (scanFund text.data).dedup := by
    rw [extract_eq, List.map_map]
    exact List.map_id _
  refine ⟨hmap, ?_, ?_⟩
  · rw [hmap]
    exact List.nodup_dedup _
  · intro f hf
    rw [hmap] at hf
    exact scanFund_mem _ _ (List.mem_dedup.mp hf)

/-- Witness for the amended C4: the name extracted from the
three-capitalized-word text has the two-word shape. -/
theorem extract_fund_names_amended_witness :
    twoWordFund ("India Ventures" : String).data = true :=
  (extract_fund_names_amended "Accel India Ventures is great" "u" "t").2.2
    "India Ventures" (by decide)

/-- C10 counterexample: `Thailand` does not contain the substring `asia`
(nor any other geography keyword), so a text containing `Thailand` and
nothing else geographic is not tagged with `Asia`: its record's
geographies field is empty. -/
theorem keyword_substring_thailand_counterexample :
    strContains "Acme Capital expands to Thailand".data "Thailand".data = true ∧
    (extract_data_from_text "Acme Capital expands to Thailand" "u" "t").map
        (fun r => r.geographies) = [""] ∧
    strContains ("" : String).data "Asia".data = false := by decide

/-- C10 (amended): keyword membership is a bare case-insensitive
substring test, so texts that never mention a vocabulary term as a word
are still tagged: a text whose only `ai` comes from the word `said` gets
sector `AI`, and a text whose only `asia` lies inside `Eurasia` gets
geography `Asia` (the original `Thailand`-implies-`Asia` example is
false; `Thailand` instead triggers the sector `AI` via its `ai`). -/
theorem keyword_substring_false_positives :
    (extract_data_from_text "Acme Capital said hello" "u" "t").map
        (fun r => r.sectors) = ["AI"] ∧
    strContains "Acme Capital said hello".data "AI".data = false ∧
    (extract_data_from_text "Acme Capital enters Eurasia" "u" "t").map
        (fun r => r.geographies) = ["Asia"] ∧
    strContains "Acme Capital enters Eurasia".data " Asia".data = false ∧
    (extract_data_from_text "Acme Capital expands to Thailand" "u" "t").map
        (fun r => r.sectors) = ["AI"] := by decide

/-- C7: the store append neither deduplicates nor upserts: inserting the
same `N`-record sequence twice adds exactly `2 × N` rows, the old rows
are untouched, each new row stores its record verbatim, and every new
row gets a surrogate id distinct from all existing ids and from the
other new ids (given the auto-increment invariant that stored ids are
below the counter). -/
theorem insert_twice_appends (db : DB) (es : List InvestorRecord)
    (hids : ∀ r ∈ db.rows, r.id < db.nextId) :
    (insert_data_to_db (insert_data_to_db db es) es).rows.length =
      db.rows.length + 2 * es.length ∧
    (insert_data_to_db (insert_data_to_db db es) es).rows =
      db.rows ++ freshRows db.nextId es ++ freshRows (db.nextId + es.length) es ∧
    (freshRows db.nextId es).map rowData = es ∧
    (freshRows (db.nextId + es.length) es).map rowData = es ∧
    (∀ r ∈ freshRows db.nextId es ++ freshRows (db.nextId + es.length) es,
      ∀ r0 ∈ db.rows, r.id ≠ r0.id) ∧
    ((freshRows db.nextId es ++ freshRows (db.nextId + es.length) es).map
      fun r => r.id).Nodup := by
  have hrows : (insert_data_to_db (insert_data_to_db db es) es).rows =
      db.rows ++ freshRows db.nextId es ++ freshRows (db.nextId + es.length) es := by
    rw [insert_data_spec, insert_data_spec]
  refine ⟨?_, hrows, freshRows_data _ _, freshRows_data _ _, ?_, ?_⟩
  · rw [hrows]
    simp only [List.length_append, freshRows_length]
    omega
  · intro r hr r0 hr0
    have hlow : db.nextId ≤ r.id := by
      rcases List.mem_append.mp hr with h1 | h2
      · exact (freshRows_id_bounds _ _ _ h1).1
      · have := (freshRows_id_bounds _ _ _ h2).1
        omega
    have := hids r0 hr0
    omega
  · rw [List.map_append]
    rw [List.nodup_append]
    refine ⟨freshRows_id_nodup _ _, freshRows_id_nodup _ _, ?_⟩
    intro a ha hb
    rcases List.mem_map.mp ha with ⟨r, hr, rfl⟩
    rcases List.mem_map.mp hb with ⟨r', hr', hid⟩
    have h1 := (freshRows_id_bounds _ _ _ hr).2
    have h2 := (freshRows_id_bounds _ _ _ hr').1
    omega

/-- Witness for C7 on an empty store and a one-record batch. -/
theorem insert_twice_appends_witness :
    (insert_data_to_db (insert_data_to_db ⟨[], 1⟩ [recAlphaCapital]) [recAlphaCapital]).rows.length
      = ([] : List DBRow).length + 2 * [recAlphaCapital].length :=
  (insert_twice_appends ⟨[], 1⟩ [recAlphaCapital] (by simp)).1

/-- C8: the sector/geography filtering of the presentation layer never
modifies the store — the table contents after the read/filter step are
the table contents before it — and the displayed rows are exactly the
stored rows passing the OR-combined substring filters. -/
theorem streamlit_filter_frame (db : DB) (sectorSel geoSel : List String) :
    (streamlit_view db sectorSel geoSel).2 = db ∧
    (∀ r, r ∈ (streamlit_view db sectorSel geoSel).1 ↔
      r ∈ db.rows ∧
      (sectorSel = [] ∨ ∃ f ∈ sectorSel, strContains r.sectors.data f.data = true) ∧
      (geoSel = [] ∨ ∃ f ∈ geoSel, strContains r.geographies.data f.data = true)) := by
  refine ⟨rfl, ?_⟩
  intro r
  by_cases hs : sectorSel = [] <;> by_cases hg : geoSel = [] <;>
    simp [streamlit_view, pandasFilter, hs, hg, List.mem_filter, List.any_eq_true,
      and_assoc, and_comm]

/-- C9: the fetcher processes its URLs sequentially and totally: each URL
contributes its article exactly when its fetch succeeds, a failing URL
contributes only a warning and never aborts the loop, and every URL is
accounted for by exactly one article or one warning. -/
theorem fetch_skips_failures (f : String → Except String String) (urls : List String) :
    (fetch_articles_from_user_input f urls).1 =
      urls.filterMap (fun u => match f u with
        | .ok t => some ⟨u, t⟩
        | .error _ => none) ∧
    (fetch_articles_from_user_input f urls).2 =
      urls.filterMap (fun u => match f u with
        | .ok _ => none
        | .error e => some ("Failed to fetch " ++ u ++ ": " ++ e)) ∧
    (fetch_articles_from_user_input f urls).1.length +
      (fetch_articles_from_user_input f urls).2.length = urls.length := by
  induction urls with
  | nil => exact ⟨rfl, rfl, rfl⟩
  | cons u us ih =>
    rw [fetch_articles_from_user_input]
    cases hf : f u with
    | ok t =>
      simp only [hf, List.filterMap_cons]
      refine ⟨by rw [ih.1], by rw [ih.2.1], ?_⟩
      simp only [List.length_cons]
      have := ih.2.2
      omega
    | error e =>
      simp only [hf, List.filterMap_cons]
      refine ⟨by rw [ih.1], by rw [ih.2.1], ?_⟩
      simp only [List.length_cons]
      have := ih.2.2
      omega
